import Mathlib

/-!
# myshell.c : the command interpreter `execute_command`

A shallow embedding of `src/myshell.c`.  A C string is the list of the
characters stored in its buffer; the text it denotes ends at the first NUL.
Characters are values of `Char`: the code compares them only with the ASCII
characters newline, space and `'&'` and with the built-in names.
The function `execute_command` edits its buffer in place, so every step below
maps the text before the edit to the text after it.  System calls are recorded,
in program order, in a trace of `Event`s; what the operating system answers is
read from a `Sys` record.
-/

namespace MyShell

/-! ## Constants -/

/-- Maximum number of command arguments: `#define MAX_ARGS 64` (line 25). -/
def MAX_ARGS : Nat := 64

/-! ## Line normalisation (lines 66-95) -/

/-- Line 67, `cmd[strcspn(cmd, "\n")] = 0;`: `strcspn` counts the characters
before the first `'\n'` (or the end of the C string, its NUL), and the store
ends the text there. -/
def stripNewline (cmd : List Char) : List Char :=
  cmd.takeWhile (fun c => c != '\n' && c != '\x00')

/-- Line 70, `while (*cmd == ' ') cmd++;`. -/
def skipLeading (cmd : List Char) : List Char :=
  cmd.dropWhile (fun c => c == ' ')

/-- Lines 72-75 (and again 91-94), with `len` the loop variable:
`while (len > 0 && cmd[len-1] == ' ') { cmd[len-1] = 0; len--; }`.
The store of NUL at `len-1` shortens the text to its first `len-1` characters.
(`len` is an `int`; `main` passes buffers of at most `MAX_INPUT_SIZE = 1024`
bytes, so the conversion from `strlen` does not wrap.) -/
def trimLoop (cmd : List Char) : Nat → List Char
  | 0 => cmd
  | len + 1 =>
    if cmd[len]? = some ' ' then trimLoop (cmd.take len) len else cmd

/-- Lines 71-75: `int len = strlen(cmd);` followed by the loop. -/
def trimTrailing (cmd : List Char) : List Char :=
  trimLoop cmd cmd.length

/-- The text of `cmd` when line 78 tests `strlen(cmd) == 0`: terminator cut
off, leading and trailing spaces removed (lines 66-75). -/
def trimmed (line : List Char) : List Char :=
  trimTrailing (skipLeading (stripNewline line))

/-- Line 83, `strchr(cmd, '&') != NULL`. -/
def hasAmp (cmd : List Char) : Bool :=
  cmd.contains '&'

/-- Lines 86-94: `*strchr(cmd, '&') = '\0'` ends the text at the first `'&'`,
then the trailing spaces are trimmed again. -/
def cutAmp (cmd : List Char) : List Char :=
  trimTrailing (cmd.takeWhile (fun c => c != '&'))

/-- Value of the local `background` when `execute_command` leaves the
normaliser: it is initialised to 0 (line 64), the early return of line 78
leaves it so, and line 84 sets it when `strchr` finds a `'&'`. -/
def background (line : List Char) : Bool :=
  if (trimmed line).length = 0 then false else hasAmp (trimmed line)

/-- The text of `cmd` handed to `strtok` at line 99 (the empty text when the
function has already returned at line 79). -/
def normalized (line : List Char) : List Char :=
  if (trimmed line).length = 0 then []
  else if hasAmp (trimmed line) then cutAmp (trimmed line)
  else trimmed line

/-! ## Tokenizer (lines 97-103) -/

/-- One call of `strtok(_, " ")` on the text at the scan position: skip the
leading delimiters; at the end of the text return NULL; otherwise the token
runs up to the next delimiter, which is overwritten by NUL, and the saved
position is just past it (or at the end of the text).  The result is the
returned token (`none` for NULL) and the new saved position. -/
def strtok (s : List Char) : Option (List Char) × List Char :=
  match s.dropWhile (fun c => c == ' ') with
  | [] => (none, [])
  | t => (some (t.takeWhile (fun c => c != ' ')), (t.dropWhile (fun c => c != ' ')).tail)

/-- Lines 100-103.  `argLoop k cur save` is the loop
`while (args[i] != NULL && i < MAX_ARGS - 1) args[++i] = strtok(NULL, " ");`
followed by `args[i] = NULL;`, entered with `k = MAX_ARGS - 1 - i`,
`cur = args[i]` and `save` the saved position of `strtok`.  It returns the
entries `args[i], args[i+1], ...` that precede the final NULL. -/
def argLoop : Nat → Option (List Char) → List Char → List (List Char)
  | 0, _, _ => []
  | _ + 1, none, _ => []
  | k + 1, some tok, save => tok :: argLoop k (strtok save).1 (strtok save).2

/-- Lines 98-103: `args[0] = strtok(cmd, " ")`, then the loop.  The result is
the ArgumentVector `args[0..i-1]`. -/
def tokenize (cmd : List Char) : List (List Char) :=
  argLoop (MAX_ARGS - 1) (strtok cmd).1 (strtok cmd).2

/-- The ArgumentVector that `execute_command` builds from a raw line. -/
def argv (line : List Char) : List (List Char) :=
  tokenize (normalized line)

/-! ## Effects -/

/-- Answers of the operating system to the calls of `execute_command`. -/
structure Sys where
  /-- Result of `getenv("HOME")`, `none` for NULL. -/
  home : Option (List Char)
  /-- File system: `chdir cwd path` is the new working directory when
  `chdir(path)` returns 0 from working directory `cwd`, and `none` when it
  returns non-zero. -/
  chdir : List Char → List Char → Option (List Char)
  /-- Return value of `fork()` in the calling process: negative on failure,
  0 in the newly created child, the child's process identifier in the
  parent. -/
  fork : Int
  /-- Whether `execvp(file, argv)` replaces the process image (`true`) or
  returns with an error (`false`). -/
  execvp : List Char → List (List Char) → Bool

/-- Calls with an effect outside the function, in program order. -/
inductive Event where
  | print (text : List Char)
  | chdir (path : Option (List Char))
  | fork
  | execvp (file : List Char) (args : List (List Char))
  | waitpid (pid : Int)
  | exit (status : Nat)
  deriving DecidableEq, Repr

/-- How the call of `execute_command` ends in the process that runs it. -/
inductive Status where
  /-- The function returns to the loop of `main`. -/
  | returned
  /-- The process ends by `exit(code)`. -/
  | exited (code : Nat)
  /-- `execvp` succeeded: the process now runs another program. -/
  | replaced
  deriving DecidableEq, Repr

/-- Observable result of one call of `execute_command`. -/
structure Outcome where
  trace : List Event
  cwd : List Char
  status : Status
  deriving DecidableEq, Repr

/-- Text of line 126, `printf("Error: Could not change to directory '%s'\n", args[1])`. -/
def cdErrorMsg (path : List Char) : List Char :=
  "Error: Could not change to directory '".toList ++ path ++ "'\n".toList

/-- Text of lines 134-139. -/
def helpMsgs : List Event :=
  [ .print "SimpleShell - Available commands:\n".toList,
    .print "  cd [directory]     - Change to the specified directory\n".toList,
    .print "  help               - Show this help message\n".toList,
    .print "  exit               - Exit the shell\n".toList,
    .print "  command &          - Run a command in the background\n".toList,
    .print "  Any other command will be executed as a program\n".toList ]

/-- Text of line 154, `printf("Error: Command '%s' not found\n", args[0])`. -/
def notFoundMsg (name : List Char) : List Char :=
  "Error: Command '".toList ++ name ++ "' not found\n".toList

/-- Text of line 163, `printf("[Background] Process ID: %d\n", pid)`. -/
def backgroundMsg (pid : Int) : List Char :=
  "[Background] Process ID: ".toList ++ (toString pid).toList ++ "\n".toList

/-- Lines 119-130, the `cd` built-in; `rest` is `args[1..]`.  `chdir(NULL)`
(HOME unset) fails and leaves the working directory as it is. -/
def builtin_cd (sys : Sys) (cwd : List Char) (rest : List (List Char)) : Outcome :=
  match rest with
  | [] =>
    match sys.home with
    | none => ⟨[.chdir none], cwd, .returned⟩
    | some h => ⟨[.chdir (some h)], (sys.chdir cwd h).getD cwd, .returned⟩
  | a1 :: _ =>
    match sys.chdir cwd a1 with
    | some d => ⟨[.chdir (some a1)], d, .returned⟩
    | none => ⟨[.chdir (some a1), .print (cdErrorMsg a1)], cwd, .returned⟩

/-- Lines 143-165, the process launcher, for `args[0] = a0`. -/
def launch (sys : Sys) (cwd : List Char) (a0 : List Char) (args : List (List Char))
    (bg : Bool) : Outcome :=
  if sys.fork < 0 then
    ⟨[.fork, .print "Error: Could not create a new process\n".toList], cwd, .returned⟩
  else if sys.fork = 0 then
    if sys.execvp a0 args then
      ⟨[.fork, .execvp a0 args], cwd, .replaced⟩
    else
      ⟨[.fork, .execvp a0 args, .print (notFoundMsg a0), .exit 1], cwd, .exited 1⟩
  else if !bg then
    ⟨[.fork, .waitpid sys.fork], cwd, .returned⟩
  else
    ⟨[.fork, .print (backgroundMsg sys.fork)], cwd, .returned⟩

/-- Lines 105-165: the test `args[0] == NULL`, the built-in checks and the
launcher, on the ArgumentVector `args` and the flag `background`. -/
def dispatch (sys : Sys) (cwd : List Char) (args : List (List Char)) (bg : Bool) : Outcome :=
  match args with
  | [] => ⟨[], cwd, .returned⟩
  | a0 :: rest =>
    if a0 = "exit".toList then
      ⟨[.print "Goodbye!\n".toList, .exit 0], cwd, .exited 0⟩
    else if a0 = "cd".toList then
      builtin_cd sys cwd rest
    else if a0 = "help".toList then
      ⟨helpMsgs, cwd, .returned⟩
    else
      launch sys cwd a0 (a0 :: rest) bg

/-- The function `execute_command` (lines 62-166), run with working directory
`cwd` on the buffer `line`. -/
def execute_command (sys : Sys) (cwd : List Char) (line : List Char) : Outcome :=
  let cmd := trimTrailing (skipLeading (stripNewline line))
  if cmd.length = 0 then
    ⟨[], cwd, .returned⟩
  else
    let bg := hasAmp cmd
    let cmd := if bg then cutAmp cmd else cmd
    dispatch sys cwd (tokenize cmd) bg

/-! ## Specification-side definitions -/

/-- Specification of the tokenizer, after the spec's words ("split on runs of
the space character", "no empty tokens are produced"): the maximal runs of
non-space characters of the text, in order.  These are the pieces of the text
between its space characters, the empty pieces left out. -/
def spaceRuns (s : List Char) : List (List Char) :=
  (s.splitOnP (fun c => c == ' ')).filter (fun t => t ≠ [])

/-- A sample operating system for concrete runs, seen from the interpreter
(parent) process: HOME is `/home/user`, the directories that exist are
`/home/user` and `/tmp`, `fork` succeeds with child identifier 4242, and no
program can be executed. -/
def demoSys : Sys where
  home := some "/home/user".toList
  chdir := fun _ p => if p = "/home/user".toList ∨ p = "/tmp".toList then some p else none
  fork := 4242
  execvp := fun _ _ => false

/-- A line of 70 tokens `ab`, each followed by a space, and a terminator. -/
def longLine : List Char :=
  (List.replicate 70 "ab ".toList).flatten ++ ['\n']

/-- A line of 72 space-separated tokens whose second token is the marker:
`x`, `&`, then 70 tokens `ab`, and a terminator (215 characters). -/
def markerLongLine : List Char :=
  "x & ".toList ++ (List.replicate 70 "ab ".toList).flatten ++ ['\n']

/-- A system in which HOME names a directory that does not exist: HOME is
`/gone`, the only directory is `/tmp`, and `fork` succeeds with child
identifier 4242. -/
def goneHomeSys : Sys where
  home := some "/gone".toList
  chdir := fun _ p => if p = "/tmp".toList then some p else none
  fork := 4242
  execvp := fun _ _ => false

/-- The sample system seen from the child process: `fork` has returned 0 and
no program can be executed. -/
def demoChildSys : Sys where
  home := some "/home/user".toList
  chdir := fun _ p => if p = "/home/user".toList ∨ p = "/tmp".toList then some p else none
  fork := 0
  execvp := fun _ _ => false

/-- Whether control reaches line 113, the first built-in check: neither the
return of line 79 (empty trimmed text) nor the return of line 107
(`args[0] == NULL`) is taken. -/
def reachesChecks (line : List Char) : Bool :=
  let cmd := trimTrailing (skipLeading (stripNewline line))
  if cmd.length = 0 then
    false
  else
    let cmd := if hasAmp cmd then cutAmp cmd else cmd
    match tokenize cmd with
    | [] => false
    | _ :: _ => true

/-- The sample system when process creation fails: `fork` returns -1. -/
def noForkSys : Sys where
  home := some "/home/user".toList
  chdir := fun _ p => if p = "/home/user".toList ∨ p = "/tmp".toList then some p else none
  fork := -1
  execvp := fun _ _ => false

/-! ## Lemmas on the normaliser and the tokenizer -/

theorem trimLoop_length (cmd : List Char) :
    trimLoop cmd cmd.length = cmd.rdropWhile (fun c => c == ' ') := by
  induction cmd using List.reverseRecOn with
  | nil => simp [trimLoop]
  | append_singleton l x ih =>
    rw [List.rdropWhile_concat]
    simp only [List.length_append, List.length_singleton, trimLoop]
    by_cases hx : x = ' '
    · subst hx
      simp [ih]
    · simp [hx]

theorem trimTrailing_eq (cmd : List Char) :
    trimTrailing cmd = cmd.rdropWhile (fun c => c == ' ') :=
  trimLoop_length cmd

theorem execute_command_eq (sys : Sys) (cwd line : List Char) :
    execute_command sys cwd line = dispatch sys cwd (argv line) (background line) := by
  unfold execute_command argv normalized background trimmed
  by_cases h : (trimTrailing (skipLeading (stripNewline line))).length = 0
  · simp [h, tokenize, strtok, argLoop, MAX_ARGS, dispatch]
  · by_cases hb : hasAmp (trimTrailing (skipLeading (stripNewline line))) = true
    · simp [h, hb]
    · simp [h, hb]

theorem spaceRuns_nil : spaceRuns [] = [] := by
  simp [spaceRuns]

theorem spaceRuns_space (s : List Char) : spaceRuns (' ' :: s) = spaceRuns s := by
  simp [spaceRuns]

theorem spaceRuns_dropWhile (s : List Char) :
    spaceRuns (s.dropWhile (fun c => c == ' ')) = spaceRuns s := by
  induction s with
  | nil => rfl
  | cons c s ih =>
    by_cases hc : c = ' '
    · subst hc
      simp [List.dropWhile, spaceRuns_space, ih]
    · rw [List.dropWhile_cons_of_neg (by simpa using hc)]

theorem spaceRuns_token (c : Char) (t : List Char) (hc : c ≠ ' ') :
    spaceRuns (c :: t) =
      (c :: t).takeWhile (fun c => c != ' ') ::
        spaceRuns ((c :: t).dropWhile (fun c => c != ' ')).tail := by
  have hsplit := List.takeWhile_append_dropWhile (fun c => c != ' ') (c :: t)
  have htw : ∀ x ∈ (c :: t).takeWhile (fun c => c != ' '), ¬ ((fun c => c == ' ') x = true) := by
    intro x hx
    have := List.mem_takeWhile_imp hx
    simpa using this
  have hne : (c :: t).takeWhile (fun c => c != ' ') ≠ [] := by
    rw [List.takeWhile_cons_of_pos (by simpa using hc)]
    simp
  cases hd : (c :: t).dropWhile (fun c => c != ' ') with
  | nil =>
    rw [hd, List.append_nil] at hsplit
    rw [hsplit] at htw ⊢
    simp only [spaceRuns, List.splitOnP_eq_single _ _ htw, List.tail_nil, List.splitOnP_nil]
    simp
  | cons d r =>
    have hdsp : d = ' ' := by
      have := List.head_dropWhile_not (fun c => c != ' ') (c :: t) (by rw [hd]; simp)
      simpa [hd] using this
    subst hdsp
    rw [hd] at hsplit
    conv_lhs => rw [← hsplit]
    simp only [spaceRuns, List.tail_cons]
    rw [List.splitOnP_first _ _ htw ' ' (by simp)]
    simp [hne]

theorem argLoop_strtok (k : Nat) (s : List Char) :
    argLoop k (strtok s).1 (strtok s).2 = (spaceRuns s).take k := by
  induction k generalizing s with
  | zero => simp [argLoop]
  | succ k ih =>
    rw [← spaceRuns_dropWhile s]
    unfold strtok
    cases hd : s.dropWhile (fun c => c == ' ') with
    | nil => simp [argLoop, spaceRuns_nil]
    | cons c t =>
      have hc : c ≠ ' ' := by
        have := List.head_dropWhile_not (fun c => c == ' ') s (by rw [hd]; simp)
        simpa [hd] using this
      simp only [argLoop]
      rw [ih, spaceRuns_token c t hc, List.take_succ_cons]

theorem tokenize_eq (s : List Char) : tokenize s = (spaceRuns s).take 63 :=
  argLoop_strtok 63 s

/-! ### Membership through the trimming steps -/

theorem mem_dropWhile_of_neg (p : Char → Bool) {c : Char} (hc : p c = false) (l : List Char) :
    c ∈ l.dropWhile p ↔ c ∈ l := by
  induction l with
  | nil => simp
  | cons x l ih =>
    by_cases hx : p x = true
    · rw [List.dropWhile_cons_of_pos hx, ih]
      have : c ≠ x := by
        rintro rfl
        simp [hc] at hx
      simp [this]
    · rw [List.dropWhile_cons_of_neg hx]

theorem mem_rdropWhile_of_neg (p : Char → Bool) {c : Char} (hc : p c = false) (l : List Char) :
    c ∈ l.rdropWhile p ↔ c ∈ l := by
  simp [List.rdropWhile, mem_dropWhile_of_neg p hc]

theorem mem_trimmed {c : Char} (hc : c ≠ ' ') (line : List Char) :
    c ∈ trimmed line ↔ c ∈ stripNewline line := by
  have h : (fun c => c == ' ') c = false := by simpa using hc
  rw [trimmed, trimTrailing_eq, mem_rdropWhile_of_neg (fun c => c == ' ') h, skipLeading,
    mem_dropWhile_of_neg (fun c => c == ' ') h]

theorem background_iff (line : List Char) :
    background line = true ↔ '&' ∈ trimmed line := by
  unfold background hasAmp
  by_cases h : (trimmed line).length = 0
  · have : trimmed line = [] := List.length_eq_zero.mp h
    simp [this]
  · simp [h]

/-! ### Lines with a marker -/

theorem dropWhile_append_stop (p : Char → Bool) (a : List Char) (x : Char) (v : List Char)
    (hx : p x = false) :
    (a ++ x :: v).dropWhile p = a.dropWhile p ++ x :: v := by
  induction a with
  | nil => simp [List.dropWhile, hx]
  | cons y a ih =>
    by_cases hy : p y = true
    · simp [List.dropWhile_cons_of_pos, hy, ih]
    · rw [List.cons_append, List.dropWhile_cons_of_neg hy, List.dropWhile_cons_of_neg hy,
        List.cons_append]

theorem rdropWhile_stop_append (p : Char → Bool) (b : List Char) (x : Char) (v : List Char)
    (hx : p x = false) :
    (b ++ x :: v).rdropWhile p = b ++ x :: v.rdropWhile p := by
  simp [List.rdropWhile, dropWhile_append_stop p _ _ _ hx]

theorem stripNewline_append (a u : List Char) (ha : ∀ c ∈ a, c ≠ '\n' ∧ c ≠ '\x00') :
    stripNewline (a ++ u) = a ++ stripNewline u := by
  unfold stripNewline
  rw [List.takeWhile_append_of_pos]
  intro c hc
  simpa using ha c hc

theorem stripNewline_amp (u : List Char) : stripNewline ('&' :: u) = '&' :: stripNewline u := by
  unfold stripNewline
  rw [List.takeWhile_cons_of_pos (by decide)]

theorem trimmed_amp (a u : List Char) (ha : ∀ c ∈ a, c ≠ '\n' ∧ c ≠ '\x00') :
    trimmed (a ++ '&' :: u) =
      skipLeading a ++ '&' :: (stripNewline u).rdropWhile (fun c => c == ' ') := by
  rw [trimmed, stripNewline_append a _ ha, stripNewline_amp, skipLeading,
    dropWhile_append_stop (fun c => c == ' ') _ _ _ (by decide), trimTrailing_eq,
    rdropWhile_stop_append (fun c => c == ' ') _ _ _ (by decide), skipLeading]

theorem not_mem_skipLeading {c : Char} {a : List Char} (h : c ∉ a) : c ∉ skipLeading a :=
  fun hc => h ((List.dropWhile_sublist _).subset hc)

theorem normalized_amp (a u : List Char) (ha : ∀ c ∈ a, c ≠ '\n' ∧ c ≠ '\x00')
    (hamp : '&' ∉ a) :
    normalized (a ++ '&' :: u) = trimTrailing (skipLeading a) := by
  have ht := trimmed_amp a u ha
  have hb : hasAmp (trimmed (a ++ '&' :: u)) = true := by
    simp [hasAmp, ht]
  have hl : (trimmed (a ++ '&' :: u)).length ≠ 0 := by
    simp [ht]
  unfold normalized
  rw [if_neg hl, if_pos hb, cutAmp, ht, List.takeWhile_append_of_pos]
  · simp
  · intro c hc
    have : c ≠ '&' := by
      rintro rfl
      exact not_mem_skipLeading hamp hc
    simpa using this

theorem background_amp (a u : List Char) (ha : ∀ c ∈ a, c ≠ '\n' ∧ c ≠ '\x00') :
    background (a ++ '&' :: u) = true := by
  rw [background_iff, trimmed_amp a u ha]
  simp

/-! ### Tokens are pieces of the text -/

theorem splitOnP_mem (p : Char → Bool) (s : List Char) :
    ∀ t ∈ s.splitOnP p, ∀ c ∈ t, c ∈ s ∧ p c = false := by
  induction s with
  | nil => simp
  | cons x s ih =>
    rw [List.splitOnP_cons]
    by_cases hx : p x = true
    · rw [if_pos hx]
      intro t ht c hc
      rcases List.mem_cons.mp ht with rfl | ht
      · simp at hc
      · exact ⟨List.mem_cons_of_mem _ (ih t ht c hc).1, (ih t ht c hc).2⟩
    · rw [if_neg hx]
      cases hsp : s.splitOnP p with
      | nil => simp [List.modifyHead]
      | cons h tl =>
        rw [hsp] at ih
        intro t ht c hc
        simp only [List.modifyHead, List.mem_cons] at ht
        rcases ht with rfl | ht
        · rcases List.mem_cons.mp hc with rfl | hc
          · exact ⟨List.mem_cons_self _ _, by simpa using hx⟩
          · have := ih h (List.mem_cons_self _ _) c hc
            exact ⟨List.mem_cons_of_mem _ this.1, this.2⟩
        · have := ih t (List.mem_cons_of_mem _ ht) c hc
          exact ⟨List.mem_cons_of_mem _ this.1, this.2⟩

theorem mem_spaceRuns {s t : List Char} (ht : t ∈ spaceRuns s) :
    t ≠ [] ∧ ∀ c ∈ t, c ∈ s ∧ c ≠ ' ' := by
  unfold spaceRuns at ht
  rw [List.mem_filter] at ht
  refine ⟨by simpa using ht.2, fun c hc => ?_⟩
  have := splitOnP_mem (fun c => c == ' ') s t ht.1 c hc
  exact ⟨this.1, by simpa using this.2⟩

theorem mem_tokenize {s t : List Char} (ht : t ∈ tokenize s) :
    t ≠ [] ∧ ∀ c ∈ t, c ∈ s ∧ c ≠ ' ' := by
  rw [tokenize_eq] at ht
  exact mem_spaceRuns (List.mem_of_mem_take ht)

theorem amp_not_mem_normalized (line : List Char) : '&' ∉ normalized line := by
  unfold normalized
  by_cases hl : (trimmed line).length = 0
  · simp [hl]
  · rw [if_neg hl]
    by_cases hb : hasAmp (trimmed line) = true
    · rw [if_pos hb, cutAmp, trimTrailing_eq]
      intro h
      have h1 := (mem_rdropWhile_of_neg (fun c => c == ' ') (by decide) _).mp h
      have h2 := List.mem_takeWhile_imp h1
      simp at h2
    · rw [if_neg hb]
      simpa [hasAmp] using hb

theorem normalized_eq_nil_of_trimmed {line : List Char} (h : trimmed line = []) :
    normalized line = [] := by
  simp [normalized, h]

theorem execute_command_of_normalized_nil (sys : Sys) (cwd : List Char) {line : List Char}
    (h : normalized line = []) :
    execute_command sys cwd line = ⟨[], cwd, .returned⟩ := by
  rw [execute_command_eq, argv, h]
  rfl

theorem trimTrailing_nil : trimTrailing [] = [] := rfl

theorem takeWhile_congr_mem (p q : Char → Bool) (l : List Char) (h : ∀ c ∈ l, p c = q c) :
    l.takeWhile p = l.takeWhile q := by
  induction l with
  | nil => rfl
  | cons x l ih =>
    have hx := h x (List.mem_cons_self _ _)
    have ih2 := ih (fun c hc => h c (List.mem_cons_of_mem _ hc))
    simp only [List.takeWhile, hx, ih2]

/-! ### The text that is tokenized -/

theorem splitOnP_concat_sep (p : Char → Bool) (s : List Char) (x : Char) (hx : p x = true) :
    (s ++ [x]).splitOnP p = s.splitOnP p ++ [[]] := by
  induction s with
  | nil => simp [hx]
  | cons y s ih =>
    rw [List.cons_append, List.splitOnP_cons, List.splitOnP_cons, ih]
    by_cases hy : p y = true
    · simp [hy]
    · rw [if_neg hy, if_neg hy]
      cases hs : s.splitOnP p with
      | nil => exact absurd hs (List.splitOnP_ne_nil p s)
      | cons h tl => rfl

theorem spaceRuns_concat_space (s : List Char) : spaceRuns (s ++ [' ']) = spaceRuns s := by
  simp [spaceRuns, splitOnP_concat_sep (fun c => c == ' ') s ' ' rfl]

theorem spaceRuns_rdropWhile (s : List Char) :
    spaceRuns (s.rdropWhile (fun c => c == ' ')) = spaceRuns s := by
  induction s using List.reverseRecOn with
  | nil => simp
  | append_singleton l x ih =>
    rw [List.rdropWhile_concat]
    by_cases hx : x = ' '
    · subst hx
      simp [ih, spaceRuns_concat_space]
    · simp [hx]

theorem spaceRuns_trim (s : List Char) :
    spaceRuns (trimTrailing (skipLeading s)) = spaceRuns s := by
  rw [trimTrailing_eq, spaceRuns_rdropWhile, skipLeading, spaceRuns_dropWhile]

theorem trim_amp (a u : List Char) :
    trimTrailing (skipLeading (a ++ '&' :: u)) =
      skipLeading a ++ '&' :: u.rdropWhile (fun c => c == ' ') := by
  rw [skipLeading, dropWhile_append_stop (fun c => c == ' ') _ _ _ (by decide), trimTrailing_eq,
    rdropWhile_stop_append (fun c => c == ' ') _ _ _ (by decide), skipLeading]

theorem normalized_of_strip (line a u : List Char) (hS : stripNewline line = a ++ '&' :: u)
    (hamp : '&' ∉ a) :
    normalized line = trimTrailing (skipLeading a) := by
  have ht : trimmed line = skipLeading a ++ '&' :: u.rdropWhile (fun c => c == ' ') := by
    rw [trimmed, hS, trim_amp]
  have hb : hasAmp (trimmed line) = true := by
    simp [hasAmp, ht]
  have hl : (trimmed line).length ≠ 0 := by
    simp [ht]
  unfold normalized
  rw [if_neg hl, if_pos hb, cutAmp, ht, List.takeWhile_append_of_pos]
  · simp
  · intro c hc
    have : c ≠ '&' := by
      rintro rfl
      exact not_mem_skipLeading hamp hc
    simpa using this

theorem spaceRuns_normalized (line : List Char) :
    spaceRuns (normalized line) =
      spaceRuns ((stripNewline line).takeWhile (fun c => c != '&')) := by
  by_cases hmem : '&' ∈ stripNewline line
  · have hsplit := List.takeWhile_append_dropWhile (fun c => c != '&') (stripNewline line)
    cases hd : (stripNewline line).dropWhile (fun c => c != '&') with
    | nil =>
      rw [hd, List.append_nil] at hsplit
      rw [← hsplit] at hmem
      have := List.mem_takeWhile_imp hmem
      simp at this
    | cons d u =>
      have hdamp : d = '&' := by
        have := List.head_dropWhile_not (fun c => c != '&') (stripNewline line)
          (by rw [hd]; simp)
        simpa [hd] using this
      subst hdamp
      rw [hd] at hsplit
      have hamp : '&' ∉ (stripNewline line).takeWhile (fun c => c != '&') := by
        intro h
        have := List.mem_takeWhile_imp h
        simp at this
      rw [normalized_of_strip line _ u hsplit.symm hamp, spaceRuns_trim]
  · have htw : (stripNewline line).takeWhile (fun c => c != '&') = stripNewline line := by
      rw [List.takeWhile_eq_self_iff]
      intro c hc
      have : c ≠ '&' := by
        rintro rfl
        exact hmem hc
      simpa using this
    have hnb : hasAmp (trimmed line) = false := by
      have : '&' ∉ trimmed line := fun h => hmem ((mem_trimmed (by decide) line).mp h)
      simpa [hasAmp] using this
    have hn : normalized line = trimmed line := by
      unfold normalized
      by_cases hl : (trimmed line).length = 0
      · rw [if_pos hl, List.length_eq_zero.mp hl]
      · rw [if_neg hl, hnb]
        rfl
    rw [hn, htw, trimmed, spaceRuns_trim]

/-! ### Tokenizing joined tokens -/

theorem spaceRuns_single (t : List Char) (hne : t ≠ []) (hsp : ' ' ∉ t) : spaceRuns t = [t] := by
  have h : ∀ x ∈ t, ¬ ((fun c => c == ' ') x = true) := by
    intro x hx hxs
    have : x = ' ' := by simpa using hxs
    exact hsp (this ▸ hx)
  simp [spaceRuns, List.splitOnP_eq_single _ _ h, hne]

theorem spaceRuns_intercalate (ts : List (List Char)) (h : ∀ t ∈ ts, t ≠ [] ∧ ' ' ∉ t) :
    spaceRuns ([' '].intercalate ts) = ts := by
  induction ts with
  | nil => simp [List.intercalate, spaceRuns]
  | cons t ts ih =>
    have ht := h t (List.mem_cons_self _ _)
    cases ts with
    | nil => simpa [List.intercalate] using spaceRuns_single t ht.1 ht.2
    | cons u us =>
      have ih2 := ih (fun x hx => h x (List.mem_cons_of_mem _ hx))
      have hsp : ∀ x ∈ t, ¬ ((fun c => c == ' ') x = true) := by
        intro x hx hxs
        have : x = ' ' := by simpa using hxs
        exact ht.2 (this ▸ hx)
      have e : [' '].intercalate (t :: u :: us) = t ++ ' ' :: [' '].intercalate (u :: us) := by
        simp [List.intercalate]
      rw [e, spaceRuns, List.splitOnP_first _ _ hsp ' ' (by simp)]
      rw [List.filter_cons_of_pos (by simpa using ht.1)]
      exact congrArg _ ih2

theorem argv_length_le (line : List Char) : (argv line).length ≤ 63 := by
  rw [argv, tokenize_eq, List.length_take]
  exact Nat.min_le_left _ _

/-! ### Dispatch -/

theorem fork_not_mem_builtin_cd (sys : Sys) (cwd : List Char) (rest : List (List Char)) :
    Event.fork ∉ (builtin_cd sys cwd rest).trace := by
  unfold builtin_cd
  split
  · split <;> simp
  · split <;> simp

theorem builtin_cd_status (sys : Sys) (cwd : List Char) (rest : List (List Char)) :
    (builtin_cd sys cwd rest).status = .returned ∧
      ∀ n, Event.exit n ∉ (builtin_cd sys cwd rest).trace := by
  unfold builtin_cd
  split
  · split <;> simp
  · split <;> simp

theorem launch_parent_status (sys : Sys) (cwd a0 : List Char) (args : List (List Char))
    (bg : Bool) (hp : sys.fork ≠ 0) :
    (launch sys cwd a0 args bg).status = .returned ∧
      ∀ n, Event.exit n ∉ (launch sys cwd a0 args bg).trace := by
  unfold launch
  split_ifs <;> simp

theorem dispatch_exit (sys : Sys) (cwd : List Char) (rest : List (List Char)) (bg : Bool) :
    dispatch sys cwd ("exit".toList :: rest) bg =
      ⟨[.print "Goodbye!\n".toList, .exit 0], cwd, .exited 0⟩ := rfl

theorem dispatch_cd (sys : Sys) (cwd : List Char) (rest : List (List Char)) (bg : Bool) :
    dispatch sys cwd ("cd".toList :: rest) bg = builtin_cd sys cwd rest := rfl

theorem dispatch_help (sys : Sys) (cwd : List Char) (rest : List (List Char)) (bg : Bool) :
    dispatch sys cwd ("help".toList :: rest) bg = ⟨helpMsgs, cwd, .returned⟩ := rfl

theorem dispatch_other (sys : Sys) (cwd a0 : List Char) (rest : List (List Char)) (bg : Bool)
    (h1 : a0 ≠ "exit".toList) (h2 : a0 ≠ "cd".toList) (h3 : a0 ≠ "help".toList) :
    dispatch sys cwd (a0 :: rest) bg = launch sys cwd a0 (a0 :: rest) bg := by
  simp only [dispatch]
  rw [if_neg h1, if_neg h2, if_neg h3]

/-! ### Shape of the normalized text -/

theorem rdropWhile_append_rest (p : Char → Bool) (l : List Char) :
    ∃ t, l.rdropWhile p ++ t = l := by
  induction l using List.reverseRecOn with
  | nil => exact ⟨[], by simp⟩
  | append_singleton l x ih =>
    rw [List.rdropWhile_concat]
    by_cases hx : p x = true
    · obtain ⟨t, ht⟩ := ih
      refine ⟨t ++ [x], ?_⟩
      rw [if_pos hx, ← List.append_assoc, ht]
    · exact ⟨[], by rw [if_neg hx, List.append_nil]⟩

theorem getLast?_rdropWhile (p : Char → Bool) (l : List Char) (x : Char) (hx : p x = true) :
    (l.rdropWhile p).getLast? ≠ some x := by
  intro h
  have hne : l.rdropWhile p ≠ [] := by
    intro h0
    rw [h0] at h
    simp at h
  have h1 := List.rdropWhile_last_not p l hne
  rw [List.getLast?_eq_getLast _ hne] at h
  have : (l.rdropWhile p).getLast hne = x := Option.some.inj h
  rw [this] at h1
  exact h1 hx

theorem normalized_cases (line : List Char) :
    normalized line = [] ∨ normalized line = trimmed line ∨
      normalized line = cutAmp (trimmed line) := by
  unfold normalized
  split_ifs <;> simp

theorem normalized_append_rest (line : List Char) :
    ∃ t, normalized line ++ t = skipLeading (stripNewline line) := by
  obtain ⟨t1, ht1⟩ := rdropWhile_append_rest (fun c => c == ' ') (skipLeading (stripNewline line))
  have htr : trimmed line ++ t1 = skipLeading (stripNewline line) := by
    rw [trimmed, trimTrailing_eq]
    exact ht1
  rcases normalized_cases line with h | h | h
  · exact ⟨skipLeading (stripNewline line), by rw [h]; rfl⟩
  · exact ⟨t1, by rw [h]; exact htr⟩
  · obtain ⟨t2, ht2⟩ := rdropWhile_append_rest (fun c => c == ' ')
      ((trimmed line).takeWhile (fun c => c != '&'))
    refine ⟨t2 ++ (trimmed line).dropWhile (fun c => c != '&') ++ t1, ?_⟩
    rw [h, cutAmp, trimTrailing_eq, ← List.append_assoc, ← List.append_assoc, ht2,
      List.takeWhile_append_dropWhile, htr]

theorem mem_normalized {c : Char} {line : List Char} (h : c ∈ normalized line) :
    c ∈ stripNewline line := by
  obtain ⟨t, ht⟩ := normalized_append_rest line
  have h1 : c ∈ skipLeading (stripNewline line) := by
    rw [← ht]
    exact List.mem_append_left _ h
  exact (List.dropWhile_sublist _).subset h1

theorem getLast?_normalized (line : List Char) : (normalized line).getLast? ≠ some ' ' := by
  rcases normalized_cases line with h | h | h
  · rw [h]
    simp
  · rw [h, trimmed, trimTrailing_eq]
    exact getLast?_rdropWhile _ _ _ rfl
  · rw [h, cutAmp, trimTrailing_eq]
    exact getLast?_rdropWhile _ _ _ rfl

theorem head?_normalized (line : List Char) : (normalized line).head? ≠ some ' ' := by
  obtain ⟨t, ht⟩ := normalized_append_rest line
  intro h
  cases hn : normalized line with
  | nil => rw [hn] at h; simp at h
  | cons c m =>
    rw [hn] at h ht
    have hc : c = ' ' := by simpa using h
    subst hc
    have h1 := List.head?_dropWhile_not (fun c => c == ' ') (stripNewline line)
    rw [skipLeading] at ht
    rw [← ht] at h1
    simp at h1

/-! ### Control flow and built-ins -/

theorem reachesChecks_iff (line : List Char) : reachesChecks line = true ↔ argv line ≠ [] := by
  have aux : ∀ l : List (List Char),
      ((match l with
        | [] => false
        | _ :: _ => true) = true ↔ l ≠ []) := by
    intro l
    cases l <;> simp
  unfold reachesChecks argv normalized trimmed
  by_cases h : (trimTrailing (skipLeading (stripNewline line))).length = 0
  · simp [h, tokenize, strtok, argLoop, MAX_ARGS]
  · by_cases hb : hasAmp (trimTrailing (skipLeading (stripNewline line))) = true
    · simp only [h, hb, if_true, if_false]
      exact aux _
    · simp only [h, hb, if_false]
      exact aux _

theorem stripNewline_self (s : List Char) (hs : ∀ c ∈ s, c ≠ '\n' ∧ c ≠ '\x00') :
    stripNewline s = s := by
  have := stripNewline_append s [] hs
  simpa [stripNewline] using this

theorem normalized_of_no_amp (line : List Char) (h : '&' ∉ stripNewline line) :
    normalized line = trimmed line := by
  have hnb : hasAmp (trimmed line) = false := by
    have : '&' ∉ trimmed line := fun hm => h ((mem_trimmed (by decide) line).mp hm)
    simpa [hasAmp] using this
  unfold normalized
  by_cases hl : (trimmed line).length = 0
  · rw [if_pos hl, List.length_eq_zero.mp hl]
  · rw [if_neg hl, hnb]
    rfl

theorem dispatch_builtin_bg (sys : Sys) (cwd a0 : List Char) (rest : List (List Char))
    (hb : a0 = "exit".toList ∨ a0 = "cd".toList ∨ a0 = "help".toList) (bg bg2 : Bool) :
    dispatch sys cwd (a0 :: rest) bg = dispatch sys cwd (a0 :: rest) bg2 := by
  rcases hb with rfl | rfl | rfl
  · rw [dispatch_exit, dispatch_exit]
  · rw [dispatch_cd, dispatch_cd]
  · rw [dispatch_help, dispatch_help]

theorem notice_not_mem_builtin (sys : Sys) (cwd a0 : List Char) (rest : List (List Char))
    (hb : a0 = "exit".toList ∨ a0 = "cd".toList ∨ a0 = "help".toList) (bg : Bool) (pid : Int) :
    Event.print (backgroundMsg pid) ∉ (dispatch sys cwd (a0 :: rest) bg).trace := by
  rcases hb with rfl | rfl | rfl
  · rw [dispatch_exit]
    simp [backgroundMsg]
  · rw [dispatch_cd]
    unfold builtin_cd
    split
    · split <;> simp
    · split <;> simp [backgroundMsg, cdErrorMsg]
  · rw [dispatch_help]
    simp [backgroundMsg, helpMsgs]

theorem fork_not_mem_builtin (sys : Sys) (cwd a0 : List Char) (rest : List (List Char))
    (hb : a0 = "exit".toList ∨ a0 = "cd".toList ∨ a0 = "help".toList) (bg : Bool) :
    Event.fork ∉ (dispatch sys cwd (a0 :: rest) bg).trace := by
  rcases hb with rfl | rfl | rfl
  · rw [dispatch_exit]
    simp
  · rw [dispatch_cd]
    exact fork_not_mem_builtin_cd sys cwd rest
  · rw [dispatch_help]
    simp [helpMsgs]

/-! ## The claims -/

/-- C1 as stated does not hold.  The line made of a tab and a line terminator
consists only of whitespace characters, yet `execute_command` calls `fork` on
it (and then waits for the child): the trimming loops and `strtok` treat only
the space character as blank, so the tab is a one-character token. -/
theorem tab_line_launches :
    Char.isWhitespace '\t' = true ∧ Char.isWhitespace '\n' = true ∧
      argv ['\t', '\n'] = [['\t']] ∧
      execute_command demoSys "/".toList ['\t', '\n'] =
        ⟨[.fork, .waitpid 4242], "/".toList, .returned⟩ := by
  decide

/-- C1, amended: for every raw input line that consists only of space
characters and line terminators (spaces with or without a trailing
terminator, and the empty line, among them), `execute_command` does nothing:
no output, no built-in effect, no `fork`, the working directory unchanged, and
it returns to the loop. -/
theorem blank_line_noop (sys : Sys) (cwd line : List Char)
    (h : ∀ c ∈ line, c = ' ' ∨ c = '\n') :
    execute_command sys cwd line = ⟨[], cwd, .returned⟩ := by
  apply execute_command_of_normalized_nil
  apply normalized_eq_nil_of_trimmed
  have hs : skipLeading (stripNewline line) = [] := by
    rw [skipLeading, List.dropWhile_eq_nil_iff]
    intro c hc
    have h1 := List.mem_takeWhile_imp hc
    have h2 := h c ((List.takeWhile_sublist _).subset hc)
    rcases h2 with rfl | rfl
    · rfl
    · simp at h1
  rw [trimmed, hs]
  rfl

theorem blank_line_noop_witness :
    execute_command demoSys "/".toList "   \n".toList = ⟨[], "/".toList, .returned⟩ :=
  blank_line_noop demoSys "/".toList "   \n".toList (by decide)

/-- C2: for every raw line of the form `pre ++ "&" ++ spaces ++ terminator`
(the terminator optional, `pre` a C-string text of one line: no terminator and
no NUL inside), `execute_command` computes `background = true` and no token of
the ArgumentVector contains `'&'`.  On `"sleep 5 &"` the tokens are
`["sleep", "5"]` and `background` is true. -/
theorem trailing_marker_background (pre : List Char) (k : Nat) (nl : List Char)
    (hpre : ∀ c ∈ pre, c ≠ '\n' ∧ c ≠ '\x00') (_hnl : nl = [] ∨ nl = ['\n']) :
    background (pre ++ '&' :: (List.replicate k ' ' ++ nl)) = true ∧
      (∀ t ∈ argv (pre ++ '&' :: (List.replicate k ' ' ++ nl)), '&' ∉ t) ∧
      argv "sleep 5 &".toList = ["sleep".toList, "5".toList] ∧
      background "sleep 5 &".toList = true := by
  refine ⟨background_amp pre _ hpre, ?_, by decide, by decide⟩
  intro t ht hmem
  exact amp_not_mem_normalized _ ((mem_tokenize ht).2 _ hmem).1

theorem trailing_marker_background_witness :
    background ("ls -l" ++ "&  \n").toList = true ∧ '&' ∉ "-l".toList :=
  have h := trailing_marker_background "ls -l".toList 2 ['\n'] (by decide) (by decide)
  ⟨h.1, h.2.1 "-l".toList (by decide)⟩

/-- C3: for every raw line (a C string, so without NUL inside), the flag
`background` computed by `execute_command` is true if and only if `'&'` occurs
in the trimmed line, that is in the text before the first line terminator with
its leading and trailing spaces removed. -/
theorem background_iff_marker_in_trimmed (line : List Char) (h0 : '\x00' ∉ line) :
    background line = true ↔
      '&' ∈ ((line.takeWhile (fun c => c != '\n')).dropWhile (fun c => c == ' ')).rdropWhile
        (fun c => c == ' ') := by
  have hs : stripNewline line = line.takeWhile (fun c => c != '\n') := by
    unfold stripNewline
    apply takeWhile_congr_mem
    intro c hc
    have : c ≠ '\x00' := by
      rintro rfl
      exact h0 hc
    simp [this]
  rw [background_iff, trimmed, trimTrailing_eq, skipLeading, hs]

theorem background_iff_marker_in_trimmed_witness :
    background " a & b \n".toList = true ↔
      '&' ∈ ((" a & b \n".toList.takeWhile (fun c => c != '\n')).dropWhile
        (fun c => c == ' ')).rdropWhile (fun c => c == ' ') :=
  background_iff_marker_in_trimmed " a & b \n".toList (by decide)

/-- C4: joining the tokens of the ArgumentVector of any line with single
spaces and tokenizing the joined text again gives the same ArgumentVector. -/
theorem retokenize_joined (line : List Char) :
    tokenize ([' '].intercalate (argv line)) = argv line := by
  have h : ∀ t ∈ argv line, t ≠ [] ∧ ' ' ∉ t := by
    intro t ht
    have := mem_tokenize ht
    exact ⟨this.1, fun hc => (this.2 _ hc).2 rfl⟩
  rw [tokenize_eq, spaceRuns_intercalate _ h, List.take_of_length_le (argv_length_le line)]

/-- C5: a raw line that is `k` spaces followed by nothing, by a line
terminator (and anything after it), or by the marker `'&'` and arbitrary text,
is a silent no-op of `execute_command`: empty trace (nothing printed, no
built-in, no `fork`), working directory unchanged, return to the loop. -/
theorem marker_first_noop (sys : Sys) (cwd : List Char) (k : Nat) (t : List Char)
    (h : t = [] ∨ (∃ r, t = '\n' :: r) ∨ ∃ r, t = '&' :: r) :
    execute_command sys cwd (List.replicate k ' ' ++ t) = ⟨[], cwd, .returned⟩ := by
  have hrep : ∀ c ∈ List.replicate k ' ', c ≠ '\n' ∧ c ≠ '\x00' := by
    intro c hc
    rw [List.eq_of_mem_replicate hc]
    decide
  have hskip : skipLeading (List.replicate k ' ') = [] := by
    rw [skipLeading, List.dropWhile_eq_nil_iff]
    intro c hc
    rw [List.eq_of_mem_replicate hc]
    rfl
  apply execute_command_of_normalized_nil
  rcases h with rfl | ⟨r, rfl⟩ | ⟨r, rfl⟩
  · apply normalized_eq_nil_of_trimmed
    rw [trimmed, stripNewline_append _ _ hrep]
    simp [stripNewline, hskip, trimTrailing_nil]
  · apply normalized_eq_nil_of_trimmed
    rw [trimmed, stripNewline_append _ _ hrep]
    simp [stripNewline, hskip, trimTrailing_nil]
  · rw [normalized_amp _ _ hrep, hskip, trimTrailing_nil]
    intro hc
    have := List.eq_of_mem_replicate hc
    simp at this

theorem marker_first_noop_witness :
    execute_command demoSys "/".toList (List.replicate 3 ' ' ++ "& ls\n".toList) =
      ⟨[], "/".toList, .returned⟩ :=
  marker_first_noop demoSys "/".toList 3 "& ls\n".toList (Or.inr (Or.inr ⟨" ls\n".toList, rfl⟩))

/-- C6: the ArgumentVector built from the normalized command text of any line
is the sequence, in order, of the maximal runs of non-space characters of that
text, cut to the first `MAX_ARGS - 1`; no token is empty or contains a space.
A tab stays inside its token and two adjacent spaces give no empty token
(`"a<TAB>b  c"`), and `"  ls -la  "` gives `["ls", "-la"]` with
`background = false`. -/
theorem argv_eq_spaceRuns (line : List Char) :
    argv line = (spaceRuns (normalized line)).take (MAX_ARGS - 1) ∧
      (∀ t ∈ argv line, t ≠ [] ∧ ' ' ∉ t) ∧
      argv "  ls -la  ".toList = ["ls".toList, "-la".toList] ∧
      background "  ls -la  ".toList = false ∧
      argv "a\tb  c\n".toList = ["a\tb".toList, "c".toList] :=
  ⟨tokenize_eq _, fun _ ht => ⟨(mem_tokenize ht).1, fun hc => ((mem_tokenize ht).2 _ hc).2 rfl⟩,
    by decide, by decide, by decide⟩

set_option maxRecDepth 100000 in
/-- C7 as stated does not hold.  The line `x & ab ab ... ab` (70 times `ab`)
has 72 space-separated tokens before its terminator, more than 63, yet the
ArgumentVector is `["x"]` and not the first 63 tokens of the line: lines 83-87
end the text at the first `'&'` before it is tokenized, so the tokens that
count are those before the marker.  The command is dispatched with `["x"]`
and `background = true`. -/
theorem marker_line_not_first_63 :
    (spaceRuns (markerLongLine.takeWhile (fun c => c != '\n'))).length = 72 ∧
      (spaceRuns (markerLongLine.takeWhile (fun c => c != '\n'))).take 63 =
        "x".toList :: "&".toList :: List.replicate 61 "ab".toList ∧
      argv markerLongLine = ["x".toList] ∧
      argv markerLongLine ≠ (spaceRuns (markerLongLine.takeWhile (fun c => c != '\n'))).take 63 ∧
      execute_command demoSys "/".toList markerLongLine =
        ⟨[.fork, .print "[Background] Process ID: 4242\n".toList], "/".toList, .returned⟩ := by
  decide

/-- C7, amended: for every line the ArgumentVector has at most 63
(`MAX_ARGS - 1`) tokens.  The tokens that count are those of the command text,
the line up to its first terminator or marker; when there are more than 63 of
them, the ArgumentVector is exactly the first 63 in order, and
`execute_command` goes on to the built-in checks and the launcher with these
63 tokens: the rest is dropped and nothing signals it. -/
theorem argv_bound (line : List Char) :
    (argv line).length ≤ MAX_ARGS - 1 ∧
      spaceRuns (normalized line) =
        spaceRuns ((stripNewline line).takeWhile (fun c => c != '&')) ∧
      (MAX_ARGS - 1 < (spaceRuns ((stripNewline line).takeWhile (fun c => c != '&'))).length →
        (argv line).length = 63 ∧
        argv line = (spaceRuns ((stripNewline line).takeWhile (fun c => c != '&'))).take 63 ∧
        ∀ (sys : Sys) (cwd : List Char),
          execute_command sys cwd line =
            dispatch sys cwd
              ((spaceRuns ((stripNewline line).takeWhile (fun c => c != '&'))).take 63)
              (background line)) := by
  refine ⟨argv_length_le line, spaceRuns_normalized line, ?_⟩
  rw [← spaceRuns_normalized]
  refine fun h => ⟨?_, tokenize_eq _, fun sys cwd => ?_⟩
  · rw [argv, tokenize_eq, List.length_take]
    simp only [MAX_ARGS] at h
    omega
  · rw [execute_command_eq, argv, tokenize_eq]

set_option maxRecDepth 100000 in
theorem argv_bound_witness :
    (spaceRuns ((stripNewline longLine).takeWhile (fun c => c != '&'))).length = 70 ∧
      (argv longLine).length = 63 ∧
      argv longLine = List.replicate 63 "ab".toList ∧
      execute_command demoSys "/".toList longLine =
        ⟨[.fork, .waitpid 4242], "/".toList, .returned⟩ :=
  have n : (spaceRuns ((stripNewline longLine).takeWhile (fun c => c != '&'))).length = 70 := by
    decide
  have h : MAX_ARGS - 1 <
      (spaceRuns ((stripNewline longLine).takeWhile (fun c => c != '&'))).length := by
    rw [n]
    decide
  have e : (spaceRuns ((stripNewline longLine).takeWhile (fun c => c != '&'))).take 63 =
      List.replicate 63 "ab".toList := by decide
  have b : background longLine = false := by decide
  ⟨n, ((argv_bound longLine).2.2 h).1, by rw [((argv_bound longLine).2.2 h).2.1, e],
    by rw [((argv_bound longLine).2.2 h).2.2, e, b]; decide⟩

/-- C8: text after the first marker is ignored.  For every `s` without line
terminator, NUL or `'&'`, and every `t`, `execute_command` on `s ++ "&" ++ t`
computes the same ArgumentVector and the same flag `background = true` as on
`s ++ "&"`, and its outcome is the same for every system and working
directory. -/
theorem text_after_marker_ignored (s t : List Char)
    (hs : ∀ c ∈ s, c ≠ '\n' ∧ c ≠ '\x00' ∧ c ≠ '&') :
    argv (s ++ '&' :: t) = argv (s ++ ['&']) ∧
      background (s ++ '&' :: t) = true ∧
      background (s ++ ['&']) = true ∧
      ∀ (sys : Sys) (cwd : List Char),
        execute_command sys cwd (s ++ '&' :: t) = execute_command sys cwd (s ++ ['&']) := by
  have h1 : ∀ c ∈ s, c ≠ '\n' ∧ c ≠ '\x00' := fun c hc => ⟨(hs c hc).1, (hs c hc).2.1⟩
  have h2 : '&' ∉ s := fun hc => (hs _ hc).2.2 rfl
  have ha : argv (s ++ '&' :: t) = argv (s ++ ['&']) := by
    rw [argv, argv, normalized_amp s t h1 h2, normalized_amp s [] h1 h2]
  have hb1 := background_amp s t h1
  have hb2 := background_amp s [] h1
  refine ⟨ha, hb1, hb2, fun sys cwd => ?_⟩
  rw [execute_command_eq, execute_command_eq, ha, hb1, hb2]

theorem text_after_marker_ignored_witness :
    argv ("sleep 5 " ++ "&" ++ " rm x").toList = argv ("sleep 5 " ++ "&").toList ∧
      background ("sleep 5 " ++ "&" ++ " rm x").toList = true :=
  have h := text_after_marker_ignored "sleep 5 ".toList " rm x".toList (by decide)
  ⟨h.1, h.2.1⟩

/-- C10: in the interpreter process (where `fork` does not return 0, the value
it returns in the child only), `execute_command` ends otherwise than by
returning to the loop exactly when the first token is `"exit"`; it then prints
the farewell message and calls `exit(0)`.  For every other line, whatever
`chdir`, `fork` and `execvp` answer, it returns to the loop without calling
`exit`; so the interpreter never exits with a non-zero status. -/
theorem interpreter_exits_only_on_exit (sys : Sys) (cwd line : List Char)
    (hp : sys.fork ≠ 0) :
    ((execute_command sys cwd line).status ≠ .returned ↔
        (argv line).head? = some "exit".toList) ∧
      ((argv line).head? = some "exit".toList →
        execute_command sys cwd line =
          ⟨[.print "Goodbye!\n".toList, .exit 0], cwd, .exited 0⟩) ∧
      ((argv line).head? ≠ some "exit".toList →
        (execute_command sys cwd line).status = .returned ∧
          ∀ n, Event.exit n ∉ (execute_command sys cwd line).trace) ∧
      (∀ n, (execute_command sys cwd line).status = .exited n → n = 0) := by
  rw [execute_command_eq]
  cases hargs : argv line with
  | nil => simp [dispatch]
  | cons a0 rest =>
    have hhead : ∀ x : List Char, (a0 :: rest).head? = some x ↔ a0 = x := by
      intro x
      simp
    simp only [hhead]
    by_cases h1 : a0 = "exit".toList
    · subst h1
      rw [dispatch_exit]
      simp
    · have hcd := builtin_cd_status sys cwd rest
      have hl := launch_parent_status sys cwd a0 (a0 :: rest) (background line) hp
      by_cases h2 : a0 = "cd".toList
      · subst h2
        rw [dispatch_cd]
        exact ⟨⟨fun h => absurd hcd.1 h, fun h => absurd h h1⟩, fun h => absurd h h1,
          fun _ => hcd, fun n h => by rw [hcd.1] at h; cases h⟩
      · by_cases h3 : a0 = "help".toList
        · subst h3
          rw [dispatch_help]
          exact ⟨⟨fun h => absurd rfl h, fun h => absurd h h1⟩, fun h => absurd h h1,
            fun _ => ⟨rfl, by simp [helpMsgs]⟩, fun n h => by cases h⟩
        · rw [dispatch_other _ _ _ _ _ h1 h2 h3]
          exact ⟨⟨fun h => absurd hl.1 h, fun h => absurd h h1⟩, fun h => absurd h h1,
            fun _ => hl, fun n h => by rw [hl.1] at h; cases h⟩

theorem interpreter_exits_only_on_exit_witness :
    (execute_command demoSys "/".toList "exit now &\n".toList).status = .exited 0 ∧
      (execute_command demoSys "/".toList "cd /nowhere\n".toList).status = .returned ∧
      (execute_command demoSys "/".toList "bogus_cmd_xyz\n".toList).status = .returned :=
  have hp : demoSys.fork ≠ 0 := by decide
  ⟨by rw [(interpreter_exits_only_on_exit demoSys "/".toList "exit now &\n".toList hp).2.1
      (by decide)],
    ((interpreter_exits_only_on_exit demoSys "/".toList "cd /nowhere\n".toList hp).2.2.1
      (by decide)).1,
    ((interpreter_exits_only_on_exit demoSys "/".toList "bogus_cmd_xyz\n".toList hp).2.2.1
      (by decide)).1⟩

/-- C11: for every line whose ArgumentVector is `"cd"`, a path `a1` and
possibly more tokens, when `chdir(a1)` fails from the current working
directory, `execute_command` leaves the working directory as it was, prints
exactly one message, the error text with `a1` between quotes, and returns to
the loop. -/
theorem cd_failure_keeps_cwd (sys : Sys) (cwd line a1 : List Char) (rest : List (List Char))
    (h : argv line = "cd".toList :: a1 :: rest) (hfail : sys.chdir cwd a1 = none) :
    execute_command sys cwd line =
      ⟨[.chdir (some a1),
          .print ("Error: Could not change to directory '".toList ++ a1 ++ "'\n".toList)],
        cwd, .returned⟩ := by
  rw [execute_command_eq, h, dispatch_cd]
  simp only [builtin_cd, hfail, cdErrorMsg]

theorem cd_failure_keeps_cwd_witness :
    execute_command demoSys "/".toList "cd /nowhere\n".toList =
      ⟨[.chdir (some "/nowhere".toList),
          .print "Error: Could not change to directory '/nowhere'\n".toList],
        "/".toList, .returned⟩ :=
  cd_failure_keeps_cwd demoSys "/".toList "cd /nowhere\n".toList "/nowhere".toList []
    (by decide) (by decide)

/-- C12 as stated does not hold.  With HOME set to `/gone`, a directory that
does not exist, the line `cd` leaves the working directory at `/tmp`, which is
not the value of HOME: `chdir(getenv("HOME"))` fails and line 122 ignores its
result. -/
theorem bare_cd_gone_home :
    goneHomeSys.home = some "/gone".toList ∧
      argv "cd\n".toList = ["cd".toList] ∧
      (execute_command goneHomeSys "/tmp".toList "cd\n".toList).cwd = "/tmp".toList ∧
      "/tmp".toList ≠ "/gone".toList := by
  decide

/-- C12, amended: for every state in which HOME is set, `execute_command` on a
line whose only token is `"cd"` calls `chdir` on the value of HOME and nothing
else; when that call succeeds the working directory afterwards is the
directory it selects, the one HOME names, and when it fails the working
directory is unchanged. -/
theorem cd_home_when_chdir_succeeds (sys : Sys) (cwd line home : List Char)
    (h : argv line = ["cd".toList]) (hhome : sys.home = some home) :
    (execute_command sys cwd line).trace = [.chdir (some home)] ∧
      (∀ d, sys.chdir cwd home = some d → (execute_command sys cwd line).cwd = d) ∧
      (sys.chdir cwd home = none → (execute_command sys cwd line).cwd = cwd) := by
  rw [execute_command_eq, h, dispatch_cd]
  simp only [builtin_cd, hhome]
  refine ⟨trivial, fun d hd => ?_, fun hn => ?_⟩
  · rw [hd]
    rfl
  · rw [hn]
    rfl

theorem cd_home_when_chdir_succeeds_witness :
    (execute_command demoSys "/tmp".toList "cd\n".toList).cwd = "/home/user".toList :=
  (cd_home_when_chdir_succeeds demoSys "/tmp".toList "cd\n".toList "/home/user".toList
    (by decide) rfl).2.1 "/home/user".toList (by decide)

/-- C13: for every non-built-in command, in the parent after a successful
`fork` (positive return value): with `background = false` the trace is the
`fork` and one `waitpid` on the returned identifier, nothing printed; with
`background = true` it is the `fork` and one printed notice that contains the
identifier, and no `waitpid`.  So a wait occurs if and only if `background` is
false. -/
theorem parent_waits_iff_foreground (sys : Sys) (cwd line a0 : List Char)
    (rest : List (List Char)) (h : argv line = a0 :: rest)
    (h1 : a0 ≠ "exit".toList) (h2 : a0 ≠ "cd".toList) (h3 : a0 ≠ "help".toList)
    (hpid : 0 < sys.fork) :
    (background line = false →
        execute_command sys cwd line = ⟨[.fork, .waitpid sys.fork], cwd, .returned⟩) ∧
      (background line = true →
        execute_command sys cwd line =
          ⟨[.fork, .print ("[Background] Process ID: ".toList ++ (toString sys.fork).toList ++
              "\n".toList)], cwd, .returned⟩) ∧
      ((∃ pid, Event.waitpid pid ∈ (execute_command sys cwd line).trace) ↔
        background line = false) := by
  rw [execute_command_eq, h, dispatch_other _ _ _ _ _ h1 h2 h3]
  have hn : ¬ sys.fork < 0 := by omega
  have hz : ¬ sys.fork = 0 := by omega
  unfold launch
  rw [if_neg hn, if_neg hz]
  cases hb : background line <;> simp [backgroundMsg]

theorem parent_waits_iff_foreground_witness :
    execute_command demoSys "/".toList "sleep 5\n".toList =
        ⟨[.fork, .waitpid 4242], "/".toList, .returned⟩ ∧
      execute_command demoSys "/".toList "sleep 5 &\n".toList =
        ⟨[.fork, .print "[Background] Process ID: 4242\n".toList], "/".toList, .returned⟩ :=
  ⟨(parent_waits_iff_foreground demoSys "/".toList "sleep 5\n".toList "sleep".toList
      ["5".toList] (by decide) (by decide) (by decide) (by decide) (by decide)).1 (by decide),
    (parent_waits_iff_foreground demoSys "/".toList "sleep 5 &\n".toList "sleep".toList
      ["5".toList] (by decide) (by decide) (by decide) (by decide) (by decide)).2.1 (by decide)⟩

/-- C14: for every non-built-in command, when `fork` returns a negative value
`execute_command` prints the error message and returns to the loop: no
`waitpid`, no process-identifier notice, no `execvp`, whatever the flag
`background` is. -/
theorem fork_failure (sys : Sys) (cwd line a0 : List Char) (rest : List (List Char))
    (h : argv line = a0 :: rest)
    (h1 : a0 ≠ "exit".toList) (h2 : a0 ≠ "cd".toList) (h3 : a0 ≠ "help".toList)
    (hfail : sys.fork < 0) :
    execute_command sys cwd line =
      ⟨[.fork, .print "Error: Could not create a new process\n".toList], cwd, .returned⟩ := by
  rw [execute_command_eq, h, dispatch_other _ _ _ _ _ h1 h2 h3]
  unfold launch
  rw [if_pos hfail]

theorem fork_failure_witness :
    execute_command noForkSys "/".toList "ls &\n".toList =
      ⟨[.fork, .print "Error: Could not create a new process\n".toList], "/".toList,
        .returned⟩ :=
  fork_failure noForkSys "/".toList "ls &\n".toList "ls".toList [] (by decide) (by decide)
    (by decide) (by decide) (by decide)

/-- C15: for every non-built-in command, the child (where `fork` returned 0)
calls `execvp` right after the `fork`, with the first token as the program
name and the whole ArgumentVector, first token included and in order, as the
argument list; it is the only `execvp` of the call. -/
theorem child_execs_argv (sys : Sys) (cwd line a0 : List Char) (rest : List (List Char))
    (h : argv line = a0 :: rest)
    (h1 : a0 ≠ "exit".toList) (h2 : a0 ≠ "cd".toList) (h3 : a0 ≠ "help".toList)
    (hchild : sys.fork = 0) :
    (execute_command sys cwd line).trace.take 2 = [.fork, .execvp a0 (argv line)] ∧
      ∀ file args, Event.execvp file args ∈ (execute_command sys cwd line).trace →
        file = a0 ∧ args = a0 :: rest := by
  rw [execute_command_eq, h, dispatch_other _ _ _ _ _ h1 h2 h3]
  have hn : ¬ sys.fork < 0 := by omega
  unfold launch
  rw [if_neg hn, if_pos hchild]
  split_ifs <;> simp

theorem child_execs_argv_witness :
    (execute_command demoChildSys "/".toList "ls -la /tmp &\n".toList).trace.take 2 =
      [.fork, .execvp "ls".toList ["ls".toList, "-la".toList, "/tmp".toList]] :=
  (child_execs_argv demoChildSys "/".toList "ls -la /tmp &\n".toList "ls".toList
    ["-la".toList, "/tmp".toList] (by decide) (by decide) (by decide) (by decide) rfl).1

/-- C16: for every non-built-in command whose `execvp` fails, the child prints
the error message with the first token between quotes and ends by `exit(1)`.
The parent (positive `fork` result) waits for the child or prints the
identifier notice, according to `background`, and returns to the loop; its
outcome is the same whatever `execvp` would answer, so it is the path of a
successful launch. -/
theorem exec_failure (sys : Sys) (cwd line a0 : List Char) (rest : List (List Char))
    (h : argv line = a0 :: rest)
    (h1 : a0 ≠ "exit".toList) (h2 : a0 ≠ "cd".toList) (h3 : a0 ≠ "help".toList)
    (hfail : sys.execvp a0 (a0 :: rest) = false) :
    (sys.fork = 0 →
        execute_command sys cwd line =
          ⟨[.fork, .execvp a0 (a0 :: rest),
              .print ("Error: Command '".toList ++ a0 ++ "' not found\n".toList), .exit 1],
            cwd, .exited 1⟩) ∧
      (0 < sys.fork →
        execute_command sys cwd line =
            (if background line then
              ⟨[.fork, .print (backgroundMsg sys.fork)], cwd, .returned⟩
            else ⟨[.fork, .waitpid sys.fork], cwd, .returned⟩) ∧
          ∀ e : List Char → List (List Char) → Bool,
            execute_command ⟨sys.home, sys.chdir, sys.fork, e⟩ cwd line =
              execute_command sys cwd line) := by
  refine ⟨fun hchild => ?_, fun hpid => ?_⟩
  · rw [execute_command_eq, h, dispatch_other _ _ _ _ _ h1 h2 h3]
    have hn : ¬ sys.fork < 0 := by omega
    unfold launch
    rw [if_neg hn, if_pos hchild, hfail]
    rfl
  · have hn : ¬ sys.fork < 0 := by omega
    have hz : ¬ sys.fork = 0 := by omega
    have key : ∀ e : List Char → List (List Char) → Bool,
        execute_command ⟨sys.home, sys.chdir, sys.fork, e⟩ cwd line =
          (if background line then
            ⟨[.fork, .print (backgroundMsg sys.fork)], cwd, .returned⟩
          else ⟨[.fork, .waitpid sys.fork], cwd, .returned⟩) := by
      intro e
      rw [execute_command_eq, h, dispatch_other _ _ _ _ _ h1 h2 h3]
      unfold launch
      simp only [if_neg hn, if_neg hz]
      cases background line <;> rfl
    have hsys : sys = ⟨sys.home, sys.chdir, sys.fork, sys.execvp⟩ := rfl
    have hself := key sys.execvp
    rw [← hsys] at hself
    exact ⟨hself, fun e => by rw [key e, hself]⟩

theorem exec_failure_witness :
    execute_command demoChildSys "/".toList "bogus_cmd_xyz\n".toList =
        ⟨[.fork, .execvp "bogus_cmd_xyz".toList ["bogus_cmd_xyz".toList],
            .print "Error: Command 'bogus_cmd_xyz' not found\n".toList, .exit 1],
          "/".toList, .exited 1⟩ ∧
      execute_command demoSys "/".toList "bogus_cmd_xyz\n".toList =
        ⟨[.fork, .waitpid 4242], "/".toList, .returned⟩ :=
  ⟨(exec_failure demoChildSys "/".toList "bogus_cmd_xyz\n".toList "bogus_cmd_xyz".toList []
      (by decide) (by decide) (by decide) (by decide) rfl).1 rfl,
    by
      rw [((exec_failure demoSys "/".toList "bogus_cmd_xyz\n".toList "bogus_cmd_xyz".toList []
        (by decide) (by decide) (by decide) (by decide) rfl).2 (by decide)).1]
      decide⟩

/-- C17: for every raw line, the normalized text that `execute_command` hands
to the tokenizer contains no `'&'`, no line terminator and no NUL, does not
begin with a space and does not end with a space. -/
theorem normalized_shape (line : List Char) :
    '&' ∉ normalized line ∧ '\n' ∉ normalized line ∧ '\x00' ∉ normalized line ∧
      (normalized line).head? ≠ some ' ' ∧ (normalized line).getLast? ≠ some ' ' ∧
      ∀ (sys : Sys) (cwd : List Char),
        execute_command sys cwd line =
          dispatch sys cwd (tokenize (normalized line)) (background line) := by
  refine ⟨amp_not_mem_normalized line, ?_, ?_, head?_normalized line, getLast?_normalized line,
    fun sys cwd => execute_command_eq sys cwd line⟩
  · intro h
    have := List.mem_takeWhile_imp (mem_normalized h)
    simp at this
  · intro h
    have := List.mem_takeWhile_imp (mem_normalized h)
    simp at this

/-- C18: whenever `execute_command` reaches the built-in checks, the
ArgumentVector is `a0 :: rest` with `a0` and every token of `rest` non-empty;
when it does not reach them the call is a no-op.  Every token of every
ArgumentVector is non-empty. -/
theorem argv_nonempty_at_checks (line : List Char) :
    (reachesChecks line = true →
        ∃ a0 rest, argv line = a0 :: rest ∧ a0 ≠ [] ∧ ∀ t ∈ rest, t ≠ []) ∧
      (reachesChecks line = false →
        ∀ (sys : Sys) (cwd : List Char), execute_command sys cwd line = ⟨[], cwd, .returned⟩) ∧
      (∀ t ∈ argv line, t ≠ []) := by
  have hall : ∀ t ∈ argv line, t ≠ [] := fun t ht => (mem_tokenize ht).1
  refine ⟨fun h => ?_, fun h sys cwd => ?_, hall⟩
  · have hne := (reachesChecks_iff line).mp h
    cases ha : argv line with
    | nil => exact absurd ha hne
    | cons a0 rest =>
      rw [ha] at hall
      exact ⟨a0, rest, rfl, hall a0 (List.mem_cons_self _ _),
        fun t ht => hall t (List.mem_cons_of_mem _ ht)⟩
  · have hnil : argv line = [] := by
      by_contra hne
      rw [(reachesChecks_iff line).mpr hne] at h
      cases h
    rw [execute_command_eq, hnil]
    rfl

theorem argv_nonempty_at_checks_witness :
    reachesChecks "ls -la &\n".toList = true ∧ argv "ls -la &\n".toList ≠ [] :=
  ⟨by decide,
    match (argv_nonempty_at_checks "ls -la &\n".toList).1 (by decide) with
    | ⟨_, _, h, _⟩ => by rw [h]; exact List.cons_ne_nil _ _⟩

/-- C19: the flag `background` has no effect on built-in commands.  For a line
`s` without marker whose first token is `"exit"`, `"cd"` or `"help"`, the line
`s ++ "&" ++ t` sets `background` (which `s` alone does not) and yet has
exactly the same outcome, for every system and working directory; its trace
has no `fork` and no process-identifier notice. -/
theorem builtin_ignores_background (sys : Sys) (cwd s t a0 : List Char)
    (rest : List (List Char))
    (hs : ∀ c ∈ s, c ≠ '\n' ∧ c ≠ '\x00' ∧ c ≠ '&')
    (h : argv s = a0 :: rest)
    (hb : a0 = "exit".toList ∨ a0 = "cd".toList ∨ a0 = "help".toList) :
    background s = false ∧ background (s ++ '&' :: t) = true ∧
      execute_command sys cwd (s ++ '&' :: t) = execute_command sys cwd s ∧
      Event.fork ∉ (execute_command sys cwd (s ++ '&' :: t)).trace ∧
      ∀ pid, Event.print (backgroundMsg pid) ∉ (execute_command sys cwd (s ++ '&' :: t)).trace := by
  have h1 : ∀ c ∈ s, c ≠ '\n' ∧ c ≠ '\x00' := fun c hc => ⟨(hs c hc).1, (hs c hc).2.1⟩
  have h2 : '&' ∉ s := fun hc => (hs _ hc).2.2 rfl
  have hstrip := stripNewline_self s h1
  have hbg : background s = false := by
    have : ¬ background s = true := by
      rw [background_iff, mem_trimmed (by decide), hstrip]
      exact h2
    simpa using this
  have hargv : argv (s ++ '&' :: t) = a0 :: rest := by
    rw [← h, argv, argv, normalized_amp s t h1 h2, normalized_of_no_amp s (by rw [hstrip]; exact h2),
      trimmed, hstrip]
  have hbg2 := background_amp s t h1
  rw [execute_command_eq, execute_command_eq, hargv, h, hbg, hbg2]
  exact ⟨rfl, rfl, dispatch_builtin_bg sys cwd a0 rest hb _ _,
    fork_not_mem_builtin sys cwd a0 rest hb _, notice_not_mem_builtin sys cwd a0 rest hb _⟩

theorem builtin_ignores_background_witness :
    execute_command demoSys "/".toList ("cd /tmp " ++ "&" ++ "\n").toList =
      execute_command demoSys "/".toList "cd /tmp ".toList :=
  (builtin_ignores_background demoSys "/".toList "cd /tmp ".toList "\n".toList "cd".toList
    ["/tmp".toList] (by decide) (by decide) (Or.inr (Or.inl rfl))).2.2.1

/-- C20: for every line whose first token is `"cd"`: when it is the only
token, the trace is the single call `chdir(getenv("HOME"))` and nothing is
printed, whether that call succeeds or fails; and something is printed if and
only if a second token is present and `chdir` to it fails. -/
theorem cd_prints_only_on_failed_path (sys : Sys) (cwd line : List Char)
    (rest : List (List Char)) (h : argv line = "cd".toList :: rest) :
    (rest = [] →
        (execute_command sys cwd line).trace = [.chdir sys.home] ∧
          ∀ txt, Event.print txt ∉ (execute_command sys cwd line).trace) ∧
      ((∃ txt, Event.print txt ∈ (execute_command sys cwd line).trace) ↔
        ∃ a1 r, rest = a1 :: r ∧ sys.chdir cwd a1 = none) := by
  rw [execute_command_eq, h, dispatch_cd]
  cases rest with
  | nil =>
    cases hh : sys.home <;> simp [builtin_cd, hh]
  | cons a1 r =>
    cases hc : sys.chdir cwd a1 <;> simp [builtin_cd, hc]

theorem cd_prints_only_on_failed_path_witness :
    (execute_command goneHomeSys "/tmp".toList "cd\n".toList).trace =
      [.chdir (some "/gone".toList)] :=
  ((cd_prints_only_on_failed_path goneHomeSys "/tmp".toList "cd\n".toList [] (by decide)).1
    rfl).1

end MyShell
